import Mathlib

/-!
Verification of the connection/room registry and message-routing core of a
WebSocket video-chat signaling server (`src/main.py`).

The Python `ConnectionManager` keeps two dictionaries:
  * `active_rooms : {room_id: {client_id: websocket}}`
  * `client_info  : {client_id: {"room": room_id, "name": username, "joined_at": ts}}`

We model each Python `dict` as an insertion-ordered association list (Python
dicts preserve insertion order, and overwriting a key keeps its position),
the inner dict of a room as the ordered list of its member client ids, and a
websocket send as a pair `(recipient client id, message)` collected in an
output list.  Timestamps (`datetime.now().isoformat()`) are passed in as an
opaque string parameter `now`.
-/

namespace VideoChat

/-- One entry of `client_info`: `{"room": ..., "name": ..., "joined_at": ...}`. -/
structure ClientInfo where
  room : String
  name : String
  joinedAt : String
deriving DecidableEq, Repr

/-- Lookup in an insertion-ordered association list (Python `d[k]` / `d.get(k)`). -/
def lookupA {β : Type} (l : List (String × β)) (k : String) : Option β :=
  match l with
  | [] => none
  | (k', v) :: t => if k' = k then some v else lookupA t k

/-- `d[k] = v` on a Python dict: overwrite the existing entry in place, else append. -/
def insertA {β : Type} (l : List (String × β)) (k : String) (v : β) : List (String × β) :=
  match l with
  | [] => [(k, v)]
  | (k', v') :: t => if k' = k then (k, v) :: t else (k', v') :: insertA t k v

/-- `del d[k]` on a Python dict: remove the (first) entry with key `k`. -/
def eraseA {β : Type} (l : List (String × β)) (k : String) : List (String × β) :=
  match l with
  | [] => []
  | (k', v') :: t => if k' = k then t else (k', v') :: eraseA t k

/-- `del d[c]` on the member dict of a room, viewed as its ordered key list. -/
def removeFirst (l : List String) (c : String) : List String :=
  match l with
  | [] => []
  | x :: t => if x = c then t else x :: removeFirst t c

/-- The `ConnectionManager` state: `active_rooms` (room id to ordered member
ids) and `client_info`. -/
structure State where
  activeRooms : List (String × List String)
  clientInfo : List (String × ClientInfo)
deriving DecidableEq, Repr

/-- The manager as constructed in `ConnectionManager.__init__`: both dicts empty. -/
def State.empty : State := ⟨[], []⟩

/-- Server-to-client messages (the JSON objects sent by `main.py`).
Fields read with `data.get(...)` on the inbound side may be absent, hence
`Option String` for the pass-through `signal` / `signal_type` / `message`. -/
inductive Msg where
  | user_joined (client_id username timestamp : String)
  | user_left (client_id username timestamp : String)
  | room_joined (room_id client_id : String)
      (existing_users : List (String × String)) (timestamp : String)
  | signal (sig : Option String) (signal_type : Option String) (fromId : String)
  | chat (fromId username : String) (message : Option String) (timestamp : String)
  | pong (timestamp : String)
deriving DecidableEq, Repr

/-- Was the Python truthiness test `client_id != exclude_client_id` an exclusion?
`exclude_client_id` defaults to `None`, which never equals a string. -/
def excludedB (c : String) (ex : Option String) : Bool :=
  match ex with
  | none => false
  | some e => c = e

/-- `ConnectionManager.broadcast_to_room(room_id, message, exclude_client_id)`:
send `msg` to every member of the room except the excluded one; a missing
room id is a silent no-op.  Returns the list of performed sends. -/
def broadcast_to_room (s : State) (room : String) (msg : Msg) (ex : Option String) :
    List (String × Msg) :=
  match lookupA s.activeRooms room with
  | none => []
  | some ms => (ms.filter (fun c => ! excludedB c ex)).map (fun c => (c, msg))

/-- A relayed payload as sent by `relay_message`: `{**message, "from": from_client_id}`. -/
structure Relayed (α : Type) where
  payload : α
  fromId : String
deriving DecidableEq, Repr

/-- `ConnectionManager.send_to_client(client_id, message)`: deliver only if the
client is in `client_info` and present in the dict of its room in `active_rooms`. -/
def send_to_client {α : Type} (s : State) (c : String) (m : α) : List (String × α) :=
  match lookupA s.clientInfo c with
  | none => []
  | some info =>
    match lookupA s.activeRooms info.room with
    | none => []
    | some ms => if c ∈ ms then [(c, m)] else []

/-- `ConnectionManager.relay_message(from_client_id, to_client_id, message)`:
deliver the payload annotated with the sender id, only when both ids are in
`client_info` and their recorded rooms coincide. -/
def relay_message {α : Type} (s : State) (fromC toC : String) (payload : α) :
    List (String × Relayed α) :=
  match lookupA s.clientInfo toC, lookupA s.clientInfo fromC with
  | some ti, some fi =>
    if fi.room = ti.room then send_to_client s toC ⟨payload, fromC⟩ else []
  | _, _ => []

/-- The `existing_users` list comprehension in `connect`: look up each client
display name of each client id in `client_info`; a missing id raises `KeyError`, which we
model as `none`. -/
def namesOf (ci : List (String × ClientInfo)) : List String → Option (List (String × String))
  | [] => some []
  | c :: t =>
    match lookupA ci c with
    | none => none
    | some info => (namesOf ci t).map (fun r => (c, info.name) :: r)

/-- The member-id list of the room after `connect` stores the connection: create
the dict of the room if absent (`{}` then `[client_id] = websocket`); storing under
an existing key keeps its position, a new key is appended. -/
def joinMembers (s : State) (r c : String) : List String :=
  let ms := (lookupA s.activeRooms r).getD []
  if c ∈ ms then ms else ms ++ [c]

/-- The manager state after `connect` has stored the connection and the
client record (lines 28–38 of `main.py`). -/
def joinState (s : State) (c r n now : String) : State :=
  ⟨insertA s.activeRooms r (joinMembers s r c), insertA s.clientInfo c ⟨r, n, now⟩⟩

/-- The `user_joined` fan-out of `connect`: broadcast on the already-updated
state, excluding the joiner itself. -/
def joinBroadcast (s : State) (c r n now : String) : List (String × Msg) :=
  broadcast_to_room (joinState s c r n now) r (.user_joined c n now) (some c)

/-- `ConnectionManager.connect(websocket, client_id, room_id, username)`:
create the room if absent, store the connection and the client record,
broadcast `user_joined` to the others, then send `room_joined` with the
pre-existing members back to the joiner.  The returned `Bool` is `false` when
the `existing_users` computation raises `KeyError` (a room member missing
from `client_info`); in that case the state has already been mutated and the
`user_joined` fan-out already sent, matching where the exception occurs. -/
def connect (s : State) (c r n now : String) : State × List (String × Msg) × Bool :=
  match namesOf (joinState s c r n now).clientInfo ((joinMembers s r c).filter (fun x => x ≠ c)) with
  | none => (joinState s c r n now, joinBroadcast s c r n now, false)
  | some eu =>
    (joinState s c r n now, joinBroadcast s c r n now ++ [(c, .room_joined r c eu now)], true)

/-- `ConnectionManager.disconnect(client_id)`: if registered, remove the member
from the dict of its room, broadcast `user_left` to the remaining members, delete
the room if it became empty, and delete the client record.  A client id not
in `client_info` is a no-op. -/
def disconnect (s : State) (c now : String) : State × List (String × Msg) :=
  match lookupA s.clientInfo c with
  | none => (s, [])
  | some info =>
    match lookupA s.activeRooms info.room with
    | none => (⟨s.activeRooms, eraseA s.clientInfo c⟩, [])
    | some ms =>
      if c ∈ ms then
        let ms' := removeFirst ms c
        let rooms1 := insertA s.activeRooms info.room ms'
        let s1 : State := ⟨rooms1, s.clientInfo⟩
        let out := broadcast_to_room s1 info.room (.user_left c info.name now) none
        let rooms2 := if ms' = [] then eraseA rooms1 info.room else rooms1
        (⟨rooms2, eraseA s.clientInfo c⟩, out)
      else (⟨s.activeRooms, eraseA s.clientInfo c⟩, [])

/-- Inbound client messages, discriminated by their JSON `type` field as in
`websocket_endpoint`; optional fields are read with `data.get(...)`. -/
inductive ClientMsg where
  | join (room_id username : Option String)
  | signal (toId sig signal_type : Option String)
  | chat (message : Option String)
  | ping
  | other (t : String)
deriving DecidableEq, Repr

/-- The `Active`-state dispatch of the receive loop in `websocket_endpoint`, one
inbound message at a time.  `Except.error ()` models an uncaught exception
(the `chat` branch reads `client_info[client_id]` unguarded).  Unknown types
fall through all branches and are ignored. -/
def handle_active (s : State) (c : String) (m : ClientMsg) (now : String) :
    Except Unit (State × List (String × Msg)) :=
  match m with
  | .signal toId sig st =>
    match toId with
    | none => .ok (s, [])
    | some t =>
      if t = "" then .ok (s, [])
      else .ok (s, (relay_message s c t (sig, st)).map
        (fun q => (q.1, Msg.signal q.2.payload.1 q.2.payload.2 q.2.fromId)))
  | .chat mtext =>
    match lookupA s.clientInfo c with
    | none => .error ()
    | some info =>
      .ok (s, broadcast_to_room s info.room (.chat c info.name mtext now) none)
  | .ping => .ok (s, [(c, .pong now)])
  | .join _ _ => .ok (s, [])
  | .other _ => .ok (s, [])

/-- The first transition of `websocket_endpoint`: `first = none` models the
connection closing (or the receive raising) before a message arrives, routed
through the `except` handlers which call `disconnect`; a non-`join` first
message falls through the `if` and the handler returns without touching the
manager; a `join` calls `connect` with the documented defaults, and on a
`connect` exception the `except` handler runs `disconnect`. -/
def session_first_step (s : State) (c : String) (first : Option ClientMsg) (now : String) :
    State × List (String × Msg) :=
  match first with
  | none => disconnect s c now
  | some (.join rid uname) =>
    let r := rid.getD "default"
    let u := uname.getD ("User_" ++ c.take 6)
    let res := connect s c r u now
    if res.2.2 then (res.1, res.2.1)
    else
      let res2 := disconnect res.1 c now
      (res2.1, res.2.1 ++ res2.2)
  | some _ => (s, [])

/-- Registry-mutating operations reachable from the endpoint: a session that
joins (with the exception-cleanup path folded in) and a session that leaves. -/
inductive Op where
  | join (c r n now : String)
  | leave (c now : String)
deriving DecidableEq, Repr

/-- The state transition of one operation.  For `join`, a `connect` that
raises is followed by the `except` handler calling `disconnect` on the same client. -/
def applyOp (s : State) : Op → State
  | .join c r n now =>
    let res := connect s c r n now
    if res.2.2 then res.1 else (disconnect res.1 c now).1
  | .leave c now => (disconnect s c now).1

/-- States reachable from the empty manager by any sequence of operations. -/
inductive Reachable : State → Prop where
  | empty : Reachable State.empty
  | step {s : State} (op : Op) : Reachable s → Reachable (applyOp s op)

/-- States reachable when every `join` respects the documented precondition
that its client id is not currently registered. -/
inductive GoodReachable : State → Prop where
  | empty : GoodReachable State.empty
  | join {s : State} (c r n now : String) (hc : lookupA s.clientInfo c = none) :
      GoodReachable s → GoodReachable (applyOp s (.join c r n now))
  | leave {s : State} (c now : String) :
      GoodReachable s → GoodReachable (applyOp s (.leave c now))

/-- Fallible fan-out over a member list: `failing` is the set of recipients
whose `websocket.send_json` raises.  `Except.error out` means the loop was
aborted by such an exception after the sends in `out` had succeeded —
`broadcast_to_room` has no handler, so the exception propagates. -/
def sendAllF (failing : List String) (ms : List String) (msg : Msg) (ex : Option String) :
    Except (List (String × Msg)) (List (String × Msg)) :=
  match ms with
  | [] => .ok []
  | c :: t =>
    if excludedB c ex then sendAllF failing t msg ex
    else if c ∈ failing then .error []
    else
      match sendAllF failing t msg ex with
      | .ok rest => .ok ((c, msg) :: rest)
      | .error rest => .error ((c, msg) :: rest)

/-- `broadcast_to_room` with transport failures made explicit: recipients in
`failing` raise on send, and the exception escapes the loop. -/
def broadcast_to_roomF (failing : List String) (s : State) (room : String) (msg : Msg)
    (ex : Option String) : Except (List (String × Msg)) (List (String × Msg)) :=
  match lookupA s.activeRooms room with
  | none => .ok []
  | some ms => sendAllF failing ms msg ex


/-! ### Association-list lemmas -/

theorem insertA_cons_self {β : Type} (t : List (String × β)) (a : String) (b v : β) :
    insertA ((a, b) :: t) a v = (a, v) :: t := by
  simp [insertA]

theorem eraseA_cons_self {β : Type} (t : List (String × β)) (a : String) (b : β) :
    eraseA ((a, b) :: t) a = t := by
  simp [eraseA]

theorem lookupA_cons_self {β : Type} (t : List (String × β)) (a : String) (b : β) :
    lookupA ((a, b) :: t) a = some b := by
  simp [lookupA]

theorem removeFirst_cons_self (t : List String) (c : String) :
    removeFirst (c :: t) c = t := by
  simp [removeFirst]

theorem lookupA_insertA_self {β : Type} (l : List (String × β)) (k : String) (v : β) :
    lookupA (insertA l k v) k = some v := by
  induction l with
  | nil => simp [insertA, lookupA]
  | cons p t ih =>
    obtain ⟨a, b⟩ := p
    by_cases h : a = k
    · subst h
      rw [insertA_cons_self, lookupA_cons_self]
    · simp [insertA, lookupA, h, ih]

theorem lookupA_insertA_ne {β : Type} (l : List (String × β)) {k k' : String} (v : β)
    (h : k' ≠ k) : lookupA (insertA l k v) k' = lookupA l k' := by
  induction l with
  | nil =>
    have hk : k ≠ k' := Ne.symm h
    simp [insertA, lookupA, hk]
  | cons p t ih =>
    obtain ⟨a, b⟩ := p
    by_cases hk : a = k
    · subst hk
      have ha : a ≠ k' := Ne.symm h
      rw [insertA_cons_self]
      simp [lookupA, ha]
    · simp [insertA, lookupA, hk, ih]

theorem lookupA_eraseA_ne {β : Type} (l : List (String × β)) {k k' : String}
    (h : k' ≠ k) : lookupA (eraseA l k) k' = lookupA l k' := by
  induction l with
  | nil => simp [eraseA]
  | cons p t ih =>
    obtain ⟨a, b⟩ := p
    by_cases hk : a = k
    · subst hk
      have ha : a ≠ k' := Ne.symm h
      rw [eraseA_cons_self]
      simp [lookupA, ha]
    · simp [eraseA, lookupA, hk, ih]

theorem mem_of_lookupA {β : Type} {l : List (String × β)} {k : String} {v : β}
    (h : lookupA l k = some v) : (k, v) ∈ l := by
  induction l with
  | nil => simp [lookupA] at h
  | cons p t ih =>
    obtain ⟨a, b⟩ := p
    by_cases hk : a = k
    · subst hk
      rw [lookupA_cons_self] at h
      cases h
      exact List.mem_cons_self _ _
    · simp only [lookupA, hk, if_false] at h
      exact List.mem_cons_of_mem _ (ih h)

theorem lookupA_eraseA_self {β : Type} (l : List (String × β)) (k : String)
    (h : (l.map Prod.fst).Nodup) : lookupA (eraseA l k) k = none := by
  induction l with
  | nil => simp [eraseA, lookupA]
  | cons p t ih =>
    obtain ⟨a, b⟩ := p
    simp only [List.map_cons, List.nodup_cons] at h
    by_cases hk : a = k
    · subst hk
      rw [eraseA_cons_self]
      by_cases hsome : lookupA t a = none
      · exact hsome
      · obtain ⟨v, hv⟩ := Option.ne_none_iff_exists'.1 hsome
        exact absurd (List.mem_map.2 ⟨(a, v), mem_of_lookupA hv, rfl⟩) h.1
    · simp [eraseA, lookupA, hk, ih h.2]

theorem lookupA_of_mem {β : Type} {l : List (String × β)} {k : String} {v : β}
    (hnd : (l.map Prod.fst).Nodup) (h : (k, v) ∈ l) : lookupA l k = some v := by
  induction l with
  | nil => simp at h
  | cons p t ih =>
    simp only [List.map_cons, List.nodup_cons] at hnd
    rcases List.mem_cons.1 h with h1 | h1
    · subst h1
      simp [lookupA]
    · have hk : p.1 ≠ k := by
        intro hc
        exact hnd.1 (List.mem_map.2 ⟨(k, v), h1, hc.symm⟩)
      simp [lookupA, hk, ih hnd.2 h1]

theorem mem_insertA {β : Type} {l : List (String × β)} {k : String} {v : β} {p : String × β}
    (h : p ∈ insertA l k v) : p = (k, v) ∨ p ∈ l := by
  induction l with
  | nil =>
    simp only [insertA, List.mem_singleton] at h
    exact Or.inl h
  | cons q t ih =>
    obtain ⟨a, b⟩ := q
    by_cases hq : a = k
    · subst hq
      rw [insertA_cons_self] at h
      rcases List.mem_cons.1 h with h | h
      · exact Or.inl h
      · exact Or.inr (List.mem_cons_of_mem _ h)
    · simp only [insertA, hq, if_false] at h
      rcases List.mem_cons.1 h with h | h
      · exact Or.inr (List.mem_cons.2 (Or.inl h))
      · rcases ih h with h2 | h2
        · exact Or.inl h2
        · exact Or.inr (List.mem_cons_of_mem _ h2)

theorem mem_insertA_nodup {β : Type} {l : List (String × β)} {k : String} {v : β}
    {p : String × β} (hnd : (l.map Prod.fst).Nodup) (h : p ∈ insertA l k v) :
    p = (k, v) ∨ (p ∈ l ∧ p.1 ≠ k) := by
  induction l with
  | nil =>
    simp only [insertA, List.mem_singleton] at h
    exact Or.inl h
  | cons q t ih =>
    obtain ⟨a, b⟩ := q
    simp only [List.map_cons, List.nodup_cons] at hnd
    by_cases hq : a = k
    · subst hq
      rw [insertA_cons_self] at h
      rcases List.mem_cons.1 h with h | h
      · exact Or.inl h
      · refine Or.inr ⟨List.mem_cons_of_mem _ h, ?_⟩
        intro hc
        exact hnd.1 (List.mem_map.2 ⟨p, h, hc⟩)
    · simp only [insertA, hq, if_false] at h
      rcases List.mem_cons.1 h with h | h
      · subst h
        exact Or.inr ⟨List.mem_cons.2 (Or.inl rfl), hq⟩
      · rcases ih hnd.2 h with h2 | h2
        · exact Or.inl h2
        · exact Or.inr ⟨List.mem_cons_of_mem _ h2.1, h2.2⟩

theorem mem_eraseA {β : Type} {l : List (String × β)} {k : String} {p : String × β}
    (h : p ∈ eraseA l k) : p ∈ l := by
  induction l with
  | nil => simp [eraseA] at h
  | cons q t ih =>
    obtain ⟨a, b⟩ := q
    by_cases hq : a = k
    · subst hq
      rw [eraseA_cons_self] at h
      exact List.mem_cons_of_mem _ h
    · simp only [eraseA, hq, if_false] at h
      rcases List.mem_cons.1 h with h | h
      · exact List.mem_cons.2 (Or.inl h)
      · exact List.mem_cons_of_mem _ (ih h)

theorem mem_eraseA_nodup {β : Type} {l : List (String × β)} {k : String} {p : String × β}
    (hnd : (l.map Prod.fst).Nodup) (h : p ∈ eraseA l k) : p ∈ l ∧ p.1 ≠ k := by
  induction l with
  | nil => simp [eraseA] at h
  | cons q t ih =>
    obtain ⟨a, b⟩ := q
    simp only [List.map_cons, List.nodup_cons] at hnd
    by_cases hq : a = k
    · subst hq
      rw [eraseA_cons_self] at h
      refine ⟨List.mem_cons_of_mem _ h, ?_⟩
      intro hc
      exact hnd.1 (List.mem_map.2 ⟨p, h, hc⟩)
    · simp only [eraseA, hq, if_false] at h
      rcases List.mem_cons.1 h with h | h
      · subst h
        exact ⟨List.mem_cons.2 (Or.inl rfl), hq⟩
      · have h2 := ih hnd.2 h
        exact ⟨List.mem_cons_of_mem _ h2.1, h2.2⟩

theorem mem_keys_insertA {β : Type} {l : List (String × β)} {k x : String} {v : β}
    (h : x ∈ (insertA l k v).map Prod.fst) : x = k ∨ x ∈ l.map Prod.fst := by
  rcases List.mem_map.1 h with ⟨p, hp, hx⟩
  rcases mem_insertA hp with h1 | h1
  · subst h1
    exact Or.inl hx.symm
  · exact Or.inr (List.mem_map.2 ⟨p, h1, hx⟩)

theorem keys_nodup_insertA {β : Type} {l : List (String × β)} (k : String) (v : β)
    (hnd : (l.map Prod.fst).Nodup) : ((insertA l k v).map Prod.fst).Nodup := by
  induction l with
  | nil => simp [insertA]
  | cons q t ih =>
    obtain ⟨a, b⟩ := q
    simp only [List.map_cons, List.nodup_cons] at hnd
    by_cases hq : a = k
    · subst hq
      rw [insertA_cons_self]
      simp only [List.map_cons, List.nodup_cons]
      exact hnd
    · simp only [insertA, hq, if_false, List.map_cons, List.nodup_cons]
      refine ⟨?_, ih hnd.2⟩
      intro hc
      rcases mem_keys_insertA hc with h1 | h1
      · exact hq h1
      · exact hnd.1 h1

theorem mem_keys_eraseA {β : Type} {l : List (String × β)} {k x : String}
    (h : x ∈ (eraseA l k).map Prod.fst) : x ∈ l.map Prod.fst := by
  rcases List.mem_map.1 h with ⟨p, hp, hx⟩
  exact List.mem_map.2 ⟨p, mem_eraseA hp, hx⟩

theorem keys_nodup_eraseA {β : Type} {l : List (String × β)} (k : String)
    (hnd : (l.map Prod.fst).Nodup) : ((eraseA l k).map Prod.fst).Nodup := by
  induction l with
  | nil => simp [eraseA]
  | cons q t ih =>
    obtain ⟨a, b⟩ := q
    simp only [List.map_cons, List.nodup_cons] at hnd
    by_cases hq : a = k
    · subst hq
      rw [eraseA_cons_self]
      exact hnd.2
    · simp only [eraseA, hq, if_false, List.map_cons, List.nodup_cons]
      exact ⟨fun hc => hnd.1 (mem_keys_eraseA hc), ih hnd.2⟩

theorem mem_removeFirst {l : List String} {c x : String}
    (h : x ∈ removeFirst l c) : x ∈ l := by
  induction l with
  | nil => simp [removeFirst] at h
  | cons q t ih =>
    by_cases hq : q = c
    · subst hq
      rw [removeFirst_cons_self] at h
      exact List.mem_cons_of_mem _ h
    · simp only [removeFirst, hq, if_false] at h
      rcases List.mem_cons.1 h with h | h
      · exact List.mem_cons.2 (Or.inl h)
      · exact List.mem_cons_of_mem _ (ih h)

theorem mem_removeFirst_of_ne {l : List String} {c x : String}
    (hx : x ∈ l) (hne : x ≠ c) : x ∈ removeFirst l c := by
  induction l with
  | nil => simp at hx
  | cons q t ih =>
    by_cases hq : q = c
    · subst hq
      rw [removeFirst_cons_self]
      rcases List.mem_cons.1 hx with h | h
      · exact absurd h hne
      · exact h
    · simp only [removeFirst, hq, if_false]
      rcases List.mem_cons.1 hx with h | h
      · exact List.mem_cons.2 (Or.inl h)
      · exact List.mem_cons_of_mem _ (ih h)

theorem nodup_removeFirst {l : List String} (c : String)
    (hnd : l.Nodup) : (removeFirst l c).Nodup := by
  induction l with
  | nil => simp [removeFirst]
  | cons q t ih =>
    simp only [List.nodup_cons] at hnd
    by_cases hq : q = c
    · subst hq
      rw [removeFirst_cons_self]
      exact hnd.2
    · simp only [removeFirst, hq, if_false, List.nodup_cons]
      exact ⟨fun hc => hnd.1 (mem_removeFirst hc), ih hnd.2⟩

theorem not_mem_removeFirst {l : List String} {c : String}
    (hnd : l.Nodup) : c ∉ removeFirst l c := by
  induction l with
  | nil => simp [removeFirst]
  | cons q t ih =>
    simp only [List.nodup_cons] at hnd
    by_cases hq : q = c
    · subst hq
      rw [removeFirst_cons_self]
      exact hnd.1
    · simp only [removeFirst, hq, if_false, List.mem_cons]
      rintro (h | h)
      · exact hq h.symm
      · exact ih hnd.2 h

/-! ### Registry invariants -/

/-- Well-formedness holding in every reachable manager state: both dicts have
distinct keys, member lists are duplicate-free and non-empty, and every
registered client is present in the member dict of its recorded room. -/
structure WF (s : State) : Prop where
  roomsNodup : (s.activeRooms.map Prod.fst).Nodup
  infoNodup : (s.clientInfo.map Prod.fst).Nodup
  membersNodup : ∀ p ∈ s.activeRooms, List.Nodup p.2
  membersNonempty : ∀ p ∈ s.activeRooms, p.2 ≠ []
  inSync : ∀ p ∈ s.clientInfo, ∃ ms, lookupA s.activeRooms p.2.room = some ms ∧ p.1 ∈ ms

/-- The stronger invariant holding when every join respected its precondition:
additionally, every member of the dict of a room is registered and its record
points back at that room. -/
structure StrongWF (s : State) extends WF s : Prop where
  membersReg : ∀ p ∈ s.activeRooms, ∀ x ∈ p.2,
    ∃ info, lookupA s.clientInfo x = some info ∧ info.room = p.1

theorem wf_empty : WF State.empty := by
  refine ⟨?_, ?_, ?_, ?_, ?_⟩ <;> simp [State.empty]

theorem swf_empty : StrongWF State.empty := by
  refine ⟨wf_empty, ?_⟩
  simp [State.empty]

theorem nodup_append_single {l : List String} {c : String} (hnd : l.Nodup) (hc : c ∉ l) :
    (l ++ [c]).Nodup := by
  simp [List.nodup_append, hnd, hc]

theorem mem_joinMembers_self (s : State) (r c : String) : c ∈ joinMembers s r c := by
  unfold joinMembers
  by_cases h : c ∈ (lookupA s.activeRooms r).getD []
  · simp [h]
  · simp [h]

theorem mem_joinMembers {s : State} {r c x : String} (h : x ∈ joinMembers s r c) :
    x ∈ (lookupA s.activeRooms r).getD [] ∨ x = c := by
  unfold joinMembers at h
  by_cases hc : c ∈ (lookupA s.activeRooms r).getD []
  · simp only [if_pos hc] at h
    exact Or.inl h
  · simp only [if_neg hc] at h
    rcases List.mem_append.1 h with h | h
    · exact Or.inl h
    · exact Or.inr (List.mem_singleton.1 h)

theorem mem_joinMembers_of_mem {s : State} {r c x : String}
    (h : x ∈ (lookupA s.activeRooms r).getD []) : x ∈ joinMembers s r c := by
  unfold joinMembers
  by_cases hc : c ∈ (lookupA s.activeRooms r).getD []
  · simpa [hc]
  · simp [hc, List.mem_append, h]

theorem nodup_joinMembers {s : State} (hwf : WF s) (r c : String) :
    (joinMembers s r c).Nodup := by
  unfold joinMembers
  cases hr : lookupA s.activeRooms r with
  | none => simp
  | some ms =>
    have hnd : ms.Nodup := hwf.membersNodup (r, ms) (mem_of_lookupA hr)
    by_cases hc : c ∈ ms
    · simpa [hc] using hnd
    · simp only [Option.getD_some, if_neg hc]
      exact nodup_append_single hnd hc

theorem joinMembers_ne_nil (s : State) (r c : String) : joinMembers s r c ≠ [] :=
  List.ne_nil_of_mem (mem_joinMembers_self s r c)

theorem connect_fst (s : State) (c r n now : String) :
    (connect s c r n now).1 = joinState s c r n now := by
  unfold connect
  cases hn : namesOf (joinState s c r n now).clientInfo
      ((joinMembers s r c).filter (fun x => x ≠ c)) with
  | none => simp
  | some eu => simp

theorem joinState_WF {s : State} (hwf : WF s) (c r n now : String) :
    WF (joinState s c r n now) := by
  obtain ⟨h1, h2, h3, h4, h5⟩ := hwf
  refine ⟨?_, ?_, ?_, ?_, ?_⟩
  · exact keys_nodup_insertA r _ h1
  · exact keys_nodup_insertA c _ h2
  · intro p hp
    rcases mem_insertA hp with h | h
    · subst h
      exact nodup_joinMembers ⟨h1, h2, h3, h4, h5⟩ r c
    · exact h3 p h
  · intro p hp
    rcases mem_insertA hp with h | h
    · subst h
      exact joinMembers_ne_nil s r c
    · exact h4 p h
  · intro p hp
    rcases mem_insertA_nodup h2 hp with h | h
    · subst h
      exact ⟨joinMembers s r c, lookupA_insertA_self _ _ _, mem_joinMembers_self s r c⟩
    · obtain ⟨ms0, hms0, hmem⟩ := h5 p h.1
      by_cases hr : p.2.room = r
      · rw [hr] at hms0 ⊢
        refine ⟨joinMembers s r c, lookupA_insertA_self _ _ _, ?_⟩
        apply mem_joinMembers_of_mem
        rw [hms0]
        exact hmem
      · refine ⟨ms0, ?_, hmem⟩
        show lookupA (insertA s.activeRooms r (joinMembers s r c)) p.2.room = some ms0
        rw [lookupA_insertA_ne _ _ hr]
        exact hms0

theorem disconnect_fst_WF {s : State} (hwf : WF s) (c now : String) :
    WF (disconnect s c now).1 := by
  obtain ⟨h1, h2, h3, h4, h5⟩ := hwf
  cases hci : lookupA s.clientInfo c with
  | none =>
    simp only [disconnect, hci]
    exact ⟨h1, h2, h3, h4, h5⟩
  | some info =>
    obtain ⟨ms, hms, hcms⟩ := h5 (c, info) (mem_of_lookupA hci)
    simp only at hms hcms
    simp only [disconnect, hci, hms, if_pos hcms]
    by_cases hemp : removeFirst ms c = []
    · simp only [if_pos hemp]
      have hnd1 : ((insertA s.activeRooms info.room (removeFirst ms c)).map Prod.fst).Nodup :=
        keys_nodup_insertA _ _ h1
      refine ⟨?_, ?_, ?_, ?_, ?_⟩
      · exact keys_nodup_eraseA _ hnd1
      · exact keys_nodup_eraseA _ h2
      · intro p hp
        obtain ⟨hp1, hp2⟩ := mem_eraseA_nodup hnd1 hp
        rcases mem_insertA_nodup h1 hp1 with h | h
        · exact absurd (by rw [h]) hp2
        · exact h3 p h.1
      · intro p hp
        obtain ⟨hp1, hp2⟩ := mem_eraseA_nodup hnd1 hp
        rcases mem_insertA_nodup h1 hp1 with h | h
        · exact absurd (by rw [h]) hp2
        · exact h4 p h.1
      · intro q hq
        obtain ⟨hq1, hq2⟩ := mem_eraseA_nodup h2 hq
        obtain ⟨ms0, hms0, hqm⟩ := h5 q hq1
        by_cases hr : q.2.room = info.room
        · exfalso
          rw [hr, hms] at hms0
          cases hms0
          have : q.1 ∈ removeFirst ms c := mem_removeFirst_of_ne hqm hq2
          rw [hemp] at this
          simp at this
        · refine ⟨ms0, ?_, hqm⟩
          rw [lookupA_eraseA_ne _ hr, lookupA_insertA_ne _ _ hr]
          exact hms0
    · simp only [if_neg hemp]
      refine ⟨?_, ?_, ?_, ?_, ?_⟩
      · exact keys_nodup_insertA _ _ h1
      · exact keys_nodup_eraseA _ h2
      · intro p hp
        rcases mem_insertA_nodup h1 hp with h | h
        · subst h
          exact nodup_removeFirst c (h3 (info.room, ms) (mem_of_lookupA hms))
        · exact h3 p h.1
      · intro p hp
        rcases mem_insertA_nodup h1 hp with h | h
        · subst h
          exact hemp
        · exact h4 p h.1
      · intro q hq
        obtain ⟨hq1, hq2⟩ := mem_eraseA_nodup h2 hq
        obtain ⟨ms0, hms0, hqm⟩ := h5 q hq1
        by_cases hr : q.2.room = info.room
        · rw [hr] at hms0 ⊢
          rw [hms] at hms0
          injection hms0 with hmm
          subst hmm
          exact ⟨removeFirst ms c, lookupA_insertA_self _ _ _, mem_removeFirst_of_ne hqm hq2⟩
        · refine ⟨ms0, ?_, hqm⟩
          rw [lookupA_insertA_ne _ _ hr]
          exact hms0

theorem applyOp_WF {s : State} (hwf : WF s) (op : Op) : WF (applyOp s op) := by
  cases op with
  | join c r n now =>
    have hj : WF (connect s c r n now).1 := by
      rw [connect_fst]
      exact joinState_WF hwf c r n now
    by_cases hok : (connect s c r n now).2.2
    · simpa [applyOp, hok] using hj
    · simp only [applyOp, hok, if_false, Bool.false_eq_true]
      exact disconnect_fst_WF hj c now
  | leave c now => exact disconnect_fst_WF hwf c now

theorem reachable_WF {s : State} (h : Reachable s) : WF s := by
  induction h with
  | empty => exact wf_empty
  | step op _ ih => exact applyOp_WF ih op

/-! ### namesOf (existing_users) lemmas -/

theorem namesOf_total {ci : List (String × ClientInfo)} {l : List String}
    (h : ∀ x ∈ l, ∃ i, lookupA ci x = some i) : ∃ eu, namesOf ci l = some eu := by
  induction l with
  | nil => exact ⟨[], rfl⟩
  | cons a t ih =>
    obtain ⟨i, hi⟩ := h a (List.mem_cons_self _ _)
    obtain ⟨eu, heu⟩ := ih (fun x hx => h x (List.mem_cons_of_mem _ hx))
    exact ⟨(a, i.name) :: eu, by simp [namesOf, hi, heu]⟩

theorem namesOf_mem {ci : List (String × ClientInfo)} {l : List String}
    {eu : List (String × String)} (h : namesOf ci l = some eu) {x : String} (hx : x ∈ l)
    {i : ClientInfo} (hi : lookupA ci x = some i) : (x, i.name) ∈ eu := by
  induction l generalizing eu with
  | nil => simp at hx
  | cons a t ih =>
    simp only [namesOf] at h
    cases ha : lookupA ci a with
    | none =>
      rw [ha] at h
      simp at h
    | some j =>
      rw [ha] at h
      cases ht : namesOf ci t with
      | none =>
        rw [ht] at h
        simp at h
      | some eu0 =>
        rw [ht] at h
        have h2 : (a, j.name) :: eu0 = eu := by simpa using h
        subst h2
        rcases List.mem_cons.1 hx with hx1 | hx1
        · subst hx1
          rw [ha] at hi
          injection hi with hij
          subst hij
          exact List.mem_cons.2 (Or.inl rfl)
        · exact List.mem_cons_of_mem _ (ih ht hx1)

theorem namesOf_keys {ci : List (String × ClientInfo)} {l : List String}
    {eu : List (String × String)} (h : namesOf ci l = some eu) : eu.map Prod.fst = l := by
  induction l generalizing eu with
  | nil =>
    simp only [namesOf, Option.some.injEq] at h
    subst h
    rfl
  | cons a t ih =>
    simp only [namesOf] at h
    cases ha : lookupA ci a with
    | none =>
      rw [ha] at h
      simp at h
    | some j =>
      rw [ha] at h
      cases ht : namesOf ci t with
      | none =>
        rw [ht] at h
        simp at h
      | some eu0 =>
        rw [ht] at h
        have h2 : (a, j.name) :: eu0 = eu := by simpa using h
        subst h2
        simp [ih ht]

/-! ### StrongWF preservation -/

theorem joinState_SWF {s : State} (hswf : StrongWF s) {c : String}
    (hc : lookupA s.clientInfo c = none) (r n now : String) :
    StrongWF (joinState s c r n now) := by
  obtain ⟨⟨h1, h2, h3, h4, h5⟩, h6⟩ := hswf
  refine ⟨joinState_WF ⟨h1, h2, h3, h4, h5⟩ c r n now, ?_⟩
  intro p hp x hx
  rcases mem_insertA_nodup h1 hp with h | h
  · subst h
    rcases mem_joinMembers hx with hx1 | hx1
    · cases hr : lookupA s.activeRooms r with
      | none =>
        rw [hr] at hx1
        simp at hx1
      | some ms =>
        rw [hr] at hx1
        simp only [Option.getD_some] at hx1
        obtain ⟨i, hxi, hir⟩ := h6 (r, ms) (mem_of_lookupA hr) x hx1
        have hxc : x ≠ c := by
          intro hxeq
          rw [hxeq, hc] at hxi
          simp at hxi
        refine ⟨i, ?_, hir⟩
        show lookupA (insertA s.clientInfo c ⟨r, n, now⟩) x = some i
        rw [lookupA_insertA_ne _ _ hxc]
        exact hxi
    · subst hx1
      exact ⟨⟨r, n, now⟩, lookupA_insertA_self _ _ _, rfl⟩
  · obtain ⟨i, hxi, hir⟩ := h6 p h.1 x hx
    have hxc : x ≠ c := by
      intro hxeq
      rw [hxeq, hc] at hxi
      simp at hxi
    refine ⟨i, ?_, hir⟩
    show lookupA (insertA s.clientInfo c ⟨r, n, now⟩) x = some i
    rw [lookupA_insertA_ne _ _ hxc]
    exact hxi

theorem connect_ok {s : State} (hswf : StrongWF s) {c : String}
    (_hc : lookupA s.clientInfo c = none) (r n now : String) :
    (connect s c r n now).2.2 = true := by
  have hall : ∀ x ∈ (joinMembers s r c).filter (fun x => x ≠ c),
      ∃ i, lookupA (joinState s c r n now).clientInfo x = some i := by
    intro x hx
    obtain ⟨hx1, hx2⟩ := List.mem_filter.1 hx
    have hxc : x ≠ c := by simpa using hx2
    rcases mem_joinMembers hx1 with hm | hm
    · cases hr : lookupA s.activeRooms r with
      | none =>
        rw [hr] at hm
        simp at hm
      | some ms =>
        rw [hr] at hm
        simp only [Option.getD_some] at hm
        obtain ⟨i, hxi, _⟩ := hswf.membersReg (r, ms) (mem_of_lookupA hr) x hm
        refine ⟨i, ?_⟩
        show lookupA (insertA s.clientInfo c ⟨r, n, now⟩) x = some i
        rw [lookupA_insertA_ne _ _ hxc]
        exact hxi
    · exact absurd hm hxc
  obtain ⟨eu, heu⟩ := namesOf_total hall
  unfold connect
  rw [heu]

theorem disconnect_SWF {s : State} (hswf : StrongWF s) (c now : String) :
    StrongWF (disconnect s c now).1 := by
  have hwf := disconnect_fst_WF hswf.toWF c now
  refine ⟨hwf, ?_⟩
  obtain ⟨⟨h1, h2, h3, h4, h5⟩, h6⟩ := hswf
  cases hci : lookupA s.clientInfo c with
  | none =>
    simp only [disconnect, hci]
    exact h6
  | some info =>
    obtain ⟨ms, hms, hcms⟩ := h5 (c, info) (mem_of_lookupA hci)
    simp only at hms hcms
    simp only [disconnect, hci, hms, if_pos hcms]
    have hndms : ms.Nodup := h3 (info.room, ms) (mem_of_lookupA hms)
    by_cases hemp : removeFirst ms c = []
    · simp only [if_pos hemp]
      intro p hp x hx
      have hnd1 : ((insertA s.activeRooms info.room (removeFirst ms c)).map Prod.fst).Nodup :=
        keys_nodup_insertA _ _ h1
      obtain ⟨hp1, hp2⟩ := mem_eraseA_nodup hnd1 hp
      rcases mem_insertA_nodup h1 hp1 with h | h
      · exact absurd (by rw [h]) hp2
      · obtain ⟨i, hxi, hir⟩ := h6 p h.1 x hx
        have hxc : x ≠ c := by
          intro hxeq
          subst hxeq
          rw [hci] at hxi
          injection hxi with hii
          subst hii
          exact h.2 hir.symm
        refine ⟨i, ?_, hir⟩
        rw [lookupA_eraseA_ne _ hxc]
        exact hxi
    · simp only [if_neg hemp]
      intro p hp x hx
      rcases mem_insertA_nodup h1 hp with h | h
      · subst h
        have hxm : x ∈ ms := mem_removeFirst hx
        have hxc : x ≠ c := by
          intro hxeq
          subst hxeq
          exact not_mem_removeFirst hndms hx
        obtain ⟨i, hxi, hir⟩ := h6 (info.room, ms) (mem_of_lookupA hms) x hxm
        refine ⟨i, ?_, hir⟩
        rw [lookupA_eraseA_ne _ hxc]
        exact hxi
      · obtain ⟨i, hxi, hir⟩ := h6 p h.1 x hx
        have hxc : x ≠ c := by
          intro hxeq
          subst hxeq
          rw [hci] at hxi
          injection hxi with hii
          subst hii
          exact h.2 hir.symm
        refine ⟨i, ?_, hir⟩
        rw [lookupA_eraseA_ne _ hxc]
        exact hxi

theorem goodReachable_SWF {s : State} (h : GoodReachable s) : StrongWF s := by
  induction h with
  | empty => exact swf_empty
  | join c r n now hc _ ih =>
    have hok := connect_ok ih hc r n now
    simp only [applyOp, hok, if_true]
    rw [connect_fst]
    exact joinState_SWF ih hc r n now
  | leave c now _ ih => exact disconnect_SWF ih c now

theorem goodReachable_reachable {s : State} (h : GoodReachable s) : Reachable s := by
  induction h with
  | empty => exact Reachable.empty
  | join c r n now hc _ ih => exact Reachable.step _ ih
  | leave c now _ ih => exact Reachable.step _ ih


/-! ### Helper lemmas for the claims -/

theorem disconnect_of_unregistered {s : State} {c : String}
    (hc : lookupA s.clientInfo c = none) (now : String) :
    disconnect s c now = (s, []) := by
  simp [disconnect, hc]

theorem lookupA_joinState_room (s : State) (c r n now : String) :
    lookupA (joinState s c r n now).activeRooms r = some (joinMembers s r c) :=
  lookupA_insertA_self _ _ _

theorem disconnect_unregisters {s : State} (hwf : WF s) (c now : String) :
    lookupA (disconnect s c now).1.clientInfo c = none := by
  cases hci : lookupA s.clientInfo c with
  | none =>
    simp [disconnect, hci]
  | some info =>
    obtain ⟨ms, hms, hcms⟩ := hwf.inSync (c, info) (mem_of_lookupA hci)
    simp only at hms hcms
    simp only [disconnect, hci, hms, if_pos hcms]
    exact lookupA_eraseA_self _ _ hwf.infoNodup

/-! ### The claims -/

/-- Claim C1: for every pair of client ids and every payload, `relay_message`
delivers the payload, annotated with the sender id in the `from` field, to
exactly the one recipient if and only if both ids are currently registered and
their recorded rooms coincide; in any other combination it is a silent no-op
that delivers nothing and surfaces no error. -/
theorem relay_direct_iff {α : Type} {s : State} (h : Reachable s) (f t : String) (p : α) :
    relay_message s f t p =
      (match lookupA s.clientInfo f, lookupA s.clientInfo t with
       | some fi, some ti => if fi.room = ti.room then [(t, Relayed.mk p f)] else []
       | _, _ => []) := by
  have hwf := reachable_WF h
  unfold relay_message
  cases hti : lookupA s.clientInfo t with
  | none =>
    cases hfi : lookupA s.clientInfo f with
    | none => simp only [hti, hfi]
    | some fi => simp only [hti, hfi]
  | some ti =>
    cases hfi : lookupA s.clientInfo f with
    | none => simp only [hti, hfi]
    | some fi =>
      simp only [hti, hfi]
      by_cases hroom : fi.room = ti.room
      · simp only [if_pos hroom]
        obtain ⟨ms, hms, htm⟩ := hwf.inSync (t, ti) (mem_of_lookupA hti)
        simp only at hms htm
        unfold send_to_client
        simp [hti, hms, htm]
      · simp only [if_neg hroom]

theorem relay_direct_iff_witness :
    relay_message
      (applyOp (applyOp State.empty (Op.join "a" "r1" "alice" "t0"))
        (Op.join "b" "r1" "bob" "t1")) "a" "b" (42 : Nat) =
      [("b", Relayed.mk 42 "a")] := by
  rw [relay_direct_iff (Reachable.step _ (Reachable.step _ Reachable.empty)) "a" "b" 42]
  decide

/-- Claim C4: for all sequences of Join and Leave operations starting from the
empty registry, every room id present in the room-to-members map has a
non-empty member set — no empty room ever remains in the registry. -/
theorem rooms_nonempty {s : State} (h : Reachable s) :
    ∀ r ms, (r, ms) ∈ s.activeRooms → ms ≠ [] := by
  intro r ms hm
  exact (reachable_WF h).membersNonempty (r, ms) hm

theorem rooms_nonempty_witness : (["a"] : List String) ≠ [] :=
  rooms_nonempty (Reachable.step (Op.join "a" "r1" "alice" "t0") Reachable.empty)
    "r1" ["a"] (by decide)

/-- Claim C5: Leave is idempotent and never fails: disconnecting an id that is
not currently registered is a no-op that leaves the state unchanged and sends
nothing, and a second disconnect of the same id is always a silent no-op, so
two consecutive disconnects produce the `user_left` fan-out at most once. -/
theorem leave_idempotent {s : State} (h : Reachable s) (c now now2 : String) :
    (lookupA s.clientInfo c = none → disconnect s c now = (s, [])) ∧
    disconnect (disconnect s c now).1 c now2 = ((disconnect s c now).1, []) := by
  have hwf := reachable_WF h
  constructor
  · intro hc
    exact disconnect_of_unregistered hc now
  · exact disconnect_of_unregistered (disconnect_unregisters hwf c now) now2

theorem leave_idempotent_witness :
    disconnect
      (disconnect (applyOp State.empty (Op.join "a" "r1" "alice" "t0")) "a" "t1").1
      "a" "t2" =
      ((disconnect (applyOp State.empty (Op.join "a" "r1" "alice" "t0")) "a" "t1").1, []) :=
  (leave_idempotent (Reachable.step _ Reachable.empty) "a" "t1" "t2").2

/-- Claim C8: if the first inbound message on a connection is anything other
than a join request (or the connection closes before any message arrives),
the session ends without the client ever being registered: for a client id
with no registry record, the state is returned unchanged and nothing is
broadcast. -/
theorem non_join_first_no_registration (s : State) (c : String) (first : Option ClientMsg)
    (now : String) (hreg : lookupA s.clientInfo c = none)
    (hnj : ∀ rid uname, first ≠ some (ClientMsg.join rid uname)) :
    session_first_step s c first now = (s, []) := by
  cases first with
  | none =>
    show disconnect s c now = (s, [])
    exact disconnect_of_unregistered hreg now
  | some m =>
    cases m with
    | join rid uname => exact absurd rfl (hnj rid uname)
    | signal a b d => rfl
    | chat a => rfl
    | ping => rfl
    | other t => rfl

theorem non_join_first_no_registration_witness :
    session_first_step State.empty "z" (some (ClientMsg.chat (some "hi"))) "t0" =
      (State.empty, []) :=
  non_join_first_no_registration State.empty "z" (some (ClientMsg.chat (some "hi"))) "t0"
    (by decide) (fun rid uname h => by simp at h)

/-- Claim C9: handling a `ping` message replies directly to the sender with a
timestamped `pong` and leaves the entire registry state unchanged. -/
theorem ping_pong_frame (s : State) (c now : String) :
    handle_active s c ClientMsg.ping now = Except.ok (s, [(c, Msg.pong now)]) := rfl

/-- Claim C10: self-targeted relay is permitted: a currently registered client
relaying to itself receives the payload back, annotated with `from` equal to
its own id, because the same-room check trivially holds. -/
theorem relay_self_delivers {α : Type} {s : State} (h : Reachable s) (c : String)
    (info : ClientInfo) (hc : lookupA s.clientInfo c = some info) (p : α) :
    relay_message s c c p = [(c, Relayed.mk p c)] := by
  have hwf := reachable_WF h
  obtain ⟨ms, hms, hcm⟩ := hwf.inSync (c, info) (mem_of_lookupA hc)
  simp only at hms hcm
  unfold relay_message send_to_client
  simp [hc, hms, hcm]

theorem relay_self_delivers_witness :
    relay_message (applyOp State.empty (Op.join "a" "r1" "alice" "t0")) "a" "a" "blob" =
      [("a", Relayed.mk "blob" "a")] :=
  relay_self_delivers (Reachable.step _ Reachable.empty) "a"
    ⟨"r1", "alice", "t0"⟩ (by decide) "blob"


/-- Faithfulness bridge: with no failing recipients, the fallible fan-out
performs exactly the sends of `broadcast_to_room`. -/
theorem sendAllF_no_failing (ms : List String) (msg : Msg) (ex : Option String) :
    sendAllF [] ms msg ex =
      Except.ok ((ms.filter (fun c => ! excludedB c ex)).map (fun c => (c, msg))) := by
  induction ms with
  | nil => rfl
  | cons a t ih =>
    by_cases hex : excludedB a ex = true
    · simp [sendAllF, hex, ih]
    · simp [sendAllF, hex, ih]

theorem broadcast_to_roomF_no_failures (s : State) (room : String) (msg : Msg)
    (ex : Option String) :
    broadcast_to_roomF [] s room msg ex = Except.ok (broadcast_to_room s room msg ex) := by
  unfold broadcast_to_roomF broadcast_to_room
  cases hms : lookupA s.activeRooms room with
  | none => rfl
  | some ms => exact sendAllF_no_failing ms msg ex

/-- Claim C2 counterexample: in a reachable state whose room `"r"` holds
members `a`, `b`, `cc` in iteration order, a send failure at `b` aborts the
fan-out — the call raises (the exception propagates to the broadcaster) and
`cc`, although reachable, receives nothing: only the send to `a` happened. -/
theorem broadcast_failure_counterexample :
    Reachable (applyOp (applyOp (applyOp State.empty (Op.join "a" "r" "alice" "t0"))
        (Op.join "b" "r" "bob" "t1")) (Op.join "cc" "r" "carol" "t2")) ∧
    lookupA (applyOp (applyOp (applyOp State.empty (Op.join "a" "r" "alice" "t0"))
        (Op.join "b" "r" "bob" "t1")) (Op.join "cc" "r" "carol" "t2")).activeRooms "r" =
      some ["a", "b", "cc"] ∧
    broadcast_to_roomF ["b"]
        (applyOp (applyOp (applyOp State.empty (Op.join "a" "r" "alice" "t0"))
          (Op.join "b" "r" "bob" "t1")) (Op.join "cc" "r" "carol" "t2"))
        "r" (Msg.chat "a" "alice" (some "hi") "t3") none =
      Except.error [("a", Msg.chat "a" "alice" (some "hi") "t3")] :=
  ⟨Reachable.step _ (Reachable.step _ (Reachable.step _ Reachable.empty)),
    by decide, by rfl⟩

/-- Claim C2 (amended): a send failure to a single recipient during
`broadcast_to_room` is NOT isolated: the loop has no exception handler, so the
members after the failing one in iteration order receive nothing and the
exception propagates to the broadcaster, who only completed the sends to the
members before the failing one. -/
theorem broadcast_failure_aborts (failing : List String) (s : State) (room : String)
    (msg : Msg) (ms pre post : List String) (b : String)
    (hms : lookupA s.activeRooms room = some ms) (hsplit : ms = pre ++ b :: post)
    (hb : b ∈ failing) (hpre : ∀ x ∈ pre, x ∉ failing) :
    broadcast_to_roomF failing s room msg none =
      Except.error (pre.map (fun x => (x, msg))) := by
  unfold broadcast_to_roomF
  simp only [hms]
  subst hsplit
  clear hms
  induction pre with
  | nil =>
    simp [sendAllF, excludedB, hb]
  | cons a t ih =>
    have ha : a ∉ failing := hpre a (List.mem_cons_self _ _)
    have ih2 := ih (fun x hx => hpre x (List.mem_cons_of_mem _ hx))
    simp only [List.cons_append, List.map_cons]
    simp only [sendAllF]
    rw [ih2]
    simp [excludedB, ha]

theorem broadcast_failure_aborts_witness :
    broadcast_to_roomF ["b"]
        (applyOp (applyOp (applyOp State.empty (Op.join "a" "r" "alice" "t0"))
          (Op.join "b" "r" "bob" "t1")) (Op.join "cc" "r" "carol" "t2"))
        "r" (Msg.user_left "z" "zoe" "t9") none =
      Except.error [("a", Msg.user_left "z" "zoe" "t9")] :=
  broadcast_failure_aborts ["b"]
    (applyOp (applyOp (applyOp State.empty (Op.join "a" "r" "alice" "t0"))
      (Op.join "b" "r" "bob" "t1")) (Op.join "cc" "r" "carol" "t2"))
    "r" (Msg.user_left "z" "zoe" "t9") ["a", "b", "cc"] ["a"] ["cc"] "b"
    (by decide) (by decide) (by decide) (by decide)

/-- Claim C3 counterexample: a client id CAN be present in the member sets of
two different rooms at once: joining `"r1"` and then, while still registered,
joining `"r2"` leaves the stale membership in `"r1"` in place, so the claim as
stated over all Join/Leave sequences is false. -/
theorem member_two_rooms_counterexample :
    Reachable (applyOp (applyOp State.empty (Op.join "c" "r1" "nick" "t0"))
      (Op.join "c" "r2" "nick" "t1")) ∧
    ("r1", ["c"]) ∈ (applyOp (applyOp State.empty (Op.join "c" "r1" "nick" "t0"))
      (Op.join "c" "r2" "nick" "t1")).activeRooms ∧
    ("r2", ["c"]) ∈ (applyOp (applyOp State.empty (Op.join "c" "r1" "nick" "t0"))
      (Op.join "c" "r2" "nick" "t1")).activeRooms ∧
    "r1" ≠ "r2" :=
  ⟨Reachable.step _ (Reachable.step _ Reachable.empty), by decide, by decide, by decide⟩

/-- Claim C3 (amended): for all sequences of Join and Leave in which every
Join respects the documented precondition that its client id is not currently
registered, a client id is never present in the member sets of two different
rooms at the same instant. -/
theorem member_at_most_one_room {s : State} (h : GoodReachable s) :
    ∀ r1 ms1 r2 ms2 c, (r1, ms1) ∈ s.activeRooms → (r2, ms2) ∈ s.activeRooms →
      c ∈ ms1 → c ∈ ms2 → r1 = r2 := by
  have hswf := goodReachable_SWF h
  intro r1 ms1 r2 ms2 c h1 h2 hc1 hc2
  obtain ⟨i1, hi1, hr1⟩ := hswf.membersReg (r1, ms1) h1 c hc1
  obtain ⟨i2, hi2, hr2⟩ := hswf.membersReg (r2, ms2) h2 c hc2
  rw [hi1] at hi2
  injection hi2 with hii
  subst hii
  exact hr1.symm.trans hr2

theorem member_at_most_one_room_witness : "r1" = "r1" :=
  member_at_most_one_room
    (GoodReachable.join "b" "r1" "bob" "t1" (by decide)
      (GoodReachable.join "a" "r1" "alice" "t0" (by decide) GoodReachable.empty))
    "r1" ["a", "b"] "r1" ["a", "b"] "a" (by decide) (by decide) (by decide) (by decide)

/-- Claim C6: joining a room with a pre-existing member A sends `user_joined`
for the joiner B to every member of the room other than B itself (so A
receives it and B never receives one about itself), and returns to B a
`room_joined` whose `existing_users` contains the client id and display name of A
and excludes B. -/
theorem join_notifies_and_lists {s : State} (h : GoodReachable s) (B R : String)
    (hB : lookupA s.clientInfo B = none) (ms : List String)
    (hR : lookupA s.activeRooms R = some ms) (A : String) (hA : A ∈ ms) (n now : String) :
    B ∉ ms ∧
    ∃ s2 eu,
      connect s B R n now =
        (s2, ms.map (fun m => (m, Msg.user_joined B n now)) ++
          [(B, Msg.room_joined R B eu now)], true) ∧
      (∃ infoA, lookupA s.clientInfo A = some infoA ∧ (A, infoA.name) ∈ eu) ∧
      (∀ q ∈ eu, q.1 ≠ B) := by
  have hswf := goodReachable_SWF h
  have hRmem : (R, ms) ∈ s.activeRooms := mem_of_lookupA hR
  have hall : ∀ m ∈ ms, m ≠ B := by
    intro m hm hmB
    obtain ⟨i, hi, _⟩ := hswf.membersReg (R, ms) hRmem m hm
    rw [hmB, hB] at hi
    simp at hi
  have hBms : B ∉ ms := fun hm => hall B hm rfl
  have hjm : joinMembers s R B = ms ++ [B] := by
    unfold joinMembers
    rw [hR]
    simp [hBms]
  have hreg2 : ∀ x ∈ ms, ∃ i, lookupA (joinState s B R n now).clientInfo x = some i := by
    intro x hx
    obtain ⟨i, hi, _⟩ := hswf.membersReg (R, ms) hRmem x hx
    refine ⟨i, ?_⟩
    show lookupA (insertA s.clientInfo B ⟨R, n, now⟩) x = some i
    rw [lookupA_insertA_ne _ _ (hall x hx)]
    exact hi
  obtain ⟨eu, heu⟩ := namesOf_total hreg2
  have hfil : (joinMembers s R B).filter (fun x => x ≠ B) = ms := by
    rw [hjm, List.filter_append]
    simp
    intro a ha
    exact hall a ha
  have heu2 : namesOf (joinState s B R n now).clientInfo
      ((joinMembers s R B).filter (fun x => x ≠ B)) = some eu := by
    rw [hfil]
    exact heu
  have hbro : joinBroadcast s B R n now =
      ms.map (fun m => (m, Msg.user_joined B n now)) := by
    unfold joinBroadcast broadcast_to_room
    simp only [lookupA_joinState_room]
    have hfil2 : (joinMembers s R B).filter (fun c => ! excludedB c (some B)) = ms := by
      rw [hjm, List.filter_append]
      simp [excludedB]
      intro a ha
      exact hall a ha
    rw [hfil2]
  refine ⟨hBms, joinState s B R n now, eu, ?_, ?_, ?_⟩
  · unfold connect
    rw [heu2, hbro]
  · obtain ⟨iA, hiA, _⟩ := hswf.membersReg (R, ms) hRmem A hA
    refine ⟨iA, hiA, ?_⟩
    have hiA2 : lookupA (joinState s B R n now).clientInfo A = some iA := by
      show lookupA (insertA s.clientInfo B ⟨R, n, now⟩) A = some iA
      rw [lookupA_insertA_ne _ _ (hall A hA)]
      exact hiA
    exact namesOf_mem heu hA hiA2
  · intro q hq
    have hq1 : q.1 ∈ ms := by
      rw [← namesOf_keys heu]
      exact List.mem_map.2 ⟨q, hq, rfl⟩
    exact hall q.1 hq1

theorem join_notifies_and_lists_witness :
    "b" ∉ (["a"] : List String) ∧
    ∃ s2 eu,
      connect (applyOp State.empty (Op.join "a" "lobby" "alice" "t0")) "b" "lobby" "bob" "t1" =
        (s2, (["a"] : List String).map (fun m => (m, Msg.user_joined "b" "bob" "t1")) ++
          [("b", Msg.room_joined "lobby" "b" eu "t1")], true) ∧
      (∃ infoA, lookupA (applyOp State.empty (Op.join "a" "lobby" "alice" "t0")).clientInfo
          "a" = some infoA ∧ ("a", infoA.name) ∈ eu) ∧
      (∀ q ∈ eu, q.1 ≠ "b") :=
  join_notifies_and_lists
    (GoodReachable.join "a" "lobby" "alice" "t0" (by decide) GoodReachable.empty)
    "b" "lobby" (by decide) ["a"] (by decide) "a" (by decide) "bob" "t1"

/-- Claim C7: a chat message from a registered sender is broadcast to every
current member of the room of the sender, the sender included, and to zero members
of every other room. -/
theorem chat_reaches_room {s : State} (h : GoodReachable s) (c : String) (info : ClientInfo)
    (hc : lookupA s.clientInfo c = some info) (mtext : Option String) (now : String) :
    ∃ ms, lookupA s.activeRooms info.room = some ms ∧ c ∈ ms ∧
      handle_active s c (ClientMsg.chat mtext) now =
        Except.ok (s, ms.map (fun x => (x, Msg.chat c info.name mtext now))) ∧
      ∀ r2 ms2, (r2, ms2) ∈ s.activeRooms → r2 ≠ info.room → ∀ x ∈ ms2, x ∉ ms := by
  have hswf := goodReachable_SWF h
  obtain ⟨ms, hms, hcm⟩ := hswf.inSync (c, info) (mem_of_lookupA hc)
  simp only at hms hcm
  refine ⟨ms, hms, hcm, ?_, ?_⟩
  · unfold handle_active broadcast_to_room
    simp [hc, hms, excludedB]
  · intro r2 ms2 hmem2 hne x hx2 hxms
    obtain ⟨i1, hi1, hir1⟩ := hswf.membersReg (r2, ms2) hmem2 x hx2
    obtain ⟨i2, hi2, hir2⟩ := hswf.membersReg (info.room, ms) (mem_of_lookupA hms) x hxms
    rw [hi1] at hi2
    injection hi2 with hii
    subst hii
    exact hne (hir1.symm.trans hir2)

theorem chat_reaches_room_witness :
    ∃ ms, lookupA (applyOp (applyOp State.empty (Op.join "a" "lobby" "alice" "t0"))
        (Op.join "b" "lobby" "bob" "t1")).activeRooms "lobby" = some ms ∧ "a" ∈ ms ∧
      handle_active (applyOp (applyOp State.empty (Op.join "a" "lobby" "alice" "t0"))
          (Op.join "b" "lobby" "bob" "t1")) "a" (ClientMsg.chat (some "hi")) "t2" =
        Except.ok ((applyOp (applyOp State.empty (Op.join "a" "lobby" "alice" "t0"))
          (Op.join "b" "lobby" "bob" "t1")),
          ms.map (fun x => (x, Msg.chat "a" "alice" (some "hi") "t2"))) ∧
      ∀ r2 ms2, (r2, ms2) ∈ (applyOp (applyOp State.empty (Op.join "a" "lobby" "alice" "t0"))
          (Op.join "b" "lobby" "bob" "t1")).activeRooms → r2 ≠ "lobby" →
        ∀ x ∈ ms2, x ∉ ms :=
  chat_reaches_room
    (GoodReachable.join "b" "lobby" "bob" "t1" (by decide)
      (GoodReachable.join "a" "lobby" "alice" "t0" (by decide) GoodReachable.empty))
    "a" ⟨"lobby", "alice", "t0"⟩ (by decide) (some "hi") "t2"


end VideoChat
